import Mathlib

/-!
Verification of the user-process / user-thread subsystem of a small
educational kernel (userprog/process.c and userprog/syscall.c).

The definitions below are shallow embeddings of the C functions named in
their doc comments.  Machine integers are modelled as Nat with explicit
reduction modulo 2 ^ 32 where 32-bit overflow matters; fallible or
blocking code returns Option, with none standing for the path on which
the C code blocks or panics (each doc comment says which).  A page of
memory is a total function from byte offsets to byte values.
-/

set_option linter.unusedVariables false

namespace Pintos

/-! ### Basic constants (threads/vaddr.h, threads/thread.h) -/

/-- TID_ERROR, the error value of tid_t returns. -/
def TID_ERROR : Int := -1

/-- PGSIZE, the page size in bytes. -/
def PGSIZE : Nat := 4096

/-- PHYS_BASE, the base of kernel virtual memory. -/
def PHYS_BASE : Nat := 0xC0000000

/-- The user page at which setup_stack maps the initial stack:
    PHYS_BASE - PGSIZE. -/
def UPAGE : Nat := PHYS_BASE - PGSIZE

/-- Modulus of 32-bit machine arithmetic. -/
def U32 : Nat := 2 ^ 32

/-- MAX_ARGS from userprog/process.h. -/
def MAX_ARGS : Nat := 1024

/-! ### Wait statuses and process_wait (process.c) -/

/-- struct wait_status (process.h): child pid, exit code, the count of
    the dead semaphore, and the shared reference count. -/
structure WaitStatus where
  pid : Nat
  exit_code : Int
  dead : Nat
  ref_cnt : Int
deriving Repr, DecidableEq

/-- process_wait (process.c): walk the children list; at the first wait
    status whose pid matches, remove it from the list, down its dead
    semaphore, read the exit code, release the reference and return the
    exit code.  A down of a semaphore whose count is 0 blocks until the
    child ups it on exit; that suspension is modelled as none.  When no
    entry matches, return -1 without touching any semaphore. -/
def process_wait : List WaitStatus → Nat → Option (Int × List WaitStatus)
  | [], _ => some (-1, [])
  | c :: rest, pid =>
    if c.pid = pid then
      if c.dead = 0 then none
      else some (c.exit_code, rest)
    else
      match process_wait rest pid with
      | none => none
      | some (r, l) => some (r, c :: l)

/-! ### Join statuses and pthread_join (process.c) -/

/-- struct join_status (thread.h side): joined thread id, waited-on
    flag, shared reference count and the count of its semaphore. -/
structure JoinStatus where
  tid : Nat
  waited_on : Bool
  ref_cnt : Int
  sema : Nat
deriving Repr, DecidableEq

/-- pthread_join (process.c): under the process thread lock scan the
    join-status list for the first entry with the requested tid that
    has not been waited on; mark it waited on, remove it from the list,
    down its semaphore (waiting until the thread exits and ups it),
    release the reference and return the tid.  When no such entry
    exists, return TID_ERROR immediately. -/
def pthread_join : List JoinStatus → Nat → Int × List JoinStatus
  | [], _ => (TID_ERROR, [])
  | j :: rest, tid =>
    if j.tid = tid ∧ j.waited_on = false then ((tid : Int), rest)
    else
      let p := pthread_join rest tid
      (p.1, j :: p.2)

/-- The join-status record built for the main thread in start_process
    (process.c): calloc zero-fills the record, then the code assigns
    tid and waited_on and initializes the semaphore to 0 before pushing
    the record onto the join-status list.  ref_cnt is never assigned,
    so it keeps its calloc value 0. -/
def mainJoinStatus (tid : Nat) : JoinStatus :=
  { tid := tid, waited_on := false, ref_cnt := 0, sema := 0 }

/-! ### User-visible locks (syscall.c) -/

/-- thread_lock_t (process.h) together with the state of its primitive
    lock: holder is the thread currently holding the primitive lock
    (none when free), as tested by lock_held_by_current_thread. -/
structure ThreadLock where
  initialized : Bool
  tid : Nat
  holder : Option Nat
deriving Repr, DecidableEq

/-- The slot state that sys_lock_init (syscall.c) gives the free slot
    it picks for a creator thread: initialized := true, tid := the
    creating thread's tid, and the primitive lock freshly initialized,
    held by nobody. -/
def lockInitSlot (creator : Nat) : ThreadLock :=
  { initialized := true, tid := creator, holder := none }

/-- sys_lock_acquire (syscall.c) acting on the (non-null, in-range)
    slot named by the handle, called by thread t.  Rejects an
    uninitialized slot and a slot whose primitive lock the caller
    already holds.  Otherwise it acquires the primitive lock - none
    models the suspension when another thread holds it - and records t
    as the owner. -/
def sys_lock_acquire (t : Nat) (s : ThreadLock) : Option (Bool × ThreadLock) :=
  if s.initialized ≠ true then some (false, s)
  else if s.holder = some t then some (false, s)
  else
    match s.holder with
    | some _ => none
    | none => some (true, { s with holder := some t, tid := t })

/-- sys_lock_release (syscall.c) acting on the slot named by the
    handle, called by thread t.  Rejects when the recorded tid differs
    from t or the slot is uninitialized.  Otherwise it calls the
    primitive lock_release, whose ASSERT(lock_held_by_current_thread)
    panics the kernel unless the caller holds the primitive lock; the
    panic is modelled as none.  On success the owner field is reset
    to 0. -/
def sys_lock_release (t : Nat) (s : ThreadLock) : Option (Bool × ThreadLock) :=
  if s.tid ≠ t ∨ s.initialized ≠ true then some (false, s)
  else
    match s.holder with
    | some u => if u = t then some (true, { s with holder := none, tid := 0 }) else none
    | none => none

/-! ### ELF segment validation (process.c) -/

/-- is_user_vaddr (threads/vaddr.h): an address is a user virtual
    address when it lies below PHYS_BASE. -/
def is_user_vaddr (v : Nat) : Bool := v < PHYS_BASE

/-- The fields of struct Elf32_Phdr consumed by validate_segment; all
    are 32-bit words. -/
structure Phdr where
  p_offset : Nat
  p_vaddr : Nat
  p_filesz : Nat
  p_memsz : Nat
deriving Repr, DecidableEq

/-- validate_segment (process.c): the chain of rejection tests, in
    source order.  The page offset of a 32-bit value is its residue
    modulo PGSIZE (x & PGMASK); the sum p_vaddr + p_memsz is a 32-bit
    addition and wraps modulo 2 ^ 32. -/
def validate_segment (phdr : Phdr) (file_len : Nat) : Bool :=
  if phdr.p_offset % PGSIZE ≠ phdr.p_vaddr % PGSIZE then false
  else if phdr.p_offset > file_len then false
  else if phdr.p_memsz < phdr.p_filesz then false
  else if phdr.p_memsz = 0 then false
  else if ¬ is_user_vaddr phdr.p_vaddr then false
  else if ¬ is_user_vaddr ((phdr.p_vaddr + phdr.p_memsz) % U32) then false
  else if (phdr.p_vaddr + phdr.p_memsz) % U32 < phdr.p_vaddr then false
  else if phdr.p_vaddr < PGSIZE then false
  else true

/-- The rejection condition as the specification words it: segment
    validation fails exactly when at least one of these holds. -/
def segmentRejectSpec (phdr : Phdr) (file_len : Nat) : Prop :=
  phdr.p_offset % PGSIZE ≠ phdr.p_vaddr % PGSIZE ∨
  phdr.p_offset > file_len ∨
  phdr.p_memsz < phdr.p_filesz ∨
  phdr.p_memsz = 0 ∨
  ¬ is_user_vaddr phdr.p_vaddr = true ∨
  ¬ is_user_vaddr ((phdr.p_vaddr + phdr.p_memsz) % U32) = true ∨
  (phdr.p_vaddr + phdr.p_memsz) % U32 < phdr.p_vaddr ∨
  phdr.p_vaddr < PGSIZE

/-! ### The stack-offset bitmap (process.c) -/

/-- The loop body of get_lowest_offset (process.c), scanning slots
    i, i+1, ... while fuel lasts: at the first slot holding false, flip
    it to true under the process thread lock and return its index.
    Exhausting the fuel models falling off the 256-iteration loop into
    NOT_REACHED, which panics the kernel: none. -/
def gloAux (o : Nat → Bool) (i : Nat) : Nat → Option (Nat × (Nat → Bool))
  | 0 => none
  | fuel + 1 =>
    if o i = false then some (i, fun j => if j = i then true else o j)
    else gloAux o (i + 1) fuel

/-- get_lowest_offset (process.c): scan slots 0..255 of the offset
    bitmap for the first free one. -/
def get_lowest_offset (o : Nat → Bool) : Option (Nat × (Nat → Bool)) :=
  gloAux o 0 256

/-- The offset bitmap of a PCB together with the set of offset slots
    whose page currently holds a live user thread stack. -/
structure OffsetState where
  offsets : Nat → Bool
  liveStacks : List Nat

/-- The bitmap invariant stated by the specification: slots 0 and 1 are
    permanently marked, and a slot at index 2 or above is marked exactly
    when a live user stack occupies its page. -/
def OffsetInv (s : OffsetState) : Prop :=
  s.offsets 0 = true ∧ s.offsets 1 = true ∧
  ∀ i, 2 ≤ i → i < 256 → (s.offsets i = true ↔ i ∈ s.liveStacks)

/-- setup_thread (process.c), projected onto the offset bitmap and the
    set of live stacks.  allocOk: palloc_get_page succeeded; installOk:
    install_page succeeded; pushOk: the three pushes succeeded.  The
    slot returned by get_lowest_offset is claimed in the bitmap in all
    three branches; only on full success does the new thread go on to
    run on the new stack.  On the install failure the code frees the
    kernel page and on the push failure it returns false directly; in
    neither failure branch does it clear the claimed bitmap slot.
    none models the kernel panic inside get_lowest_offset. -/
def setup_thread (s : OffsetState) (allocOk installOk pushOk : Bool) :
    Option (Bool × OffsetState) :=
  if allocOk = false then some (false, s)
  else
    match get_lowest_offset s.offsets with
    | none => none
    | some (i, upd) =>
      if installOk = false then some (false, { offsets := upd, liveStacks := s.liveStacks })
      else if pushOk = false then some (false, { offsets := upd, liveStacks := s.liveStacks })
      else some (true, { offsets := upd, liveStacks := i :: s.liveStacks })

/-! ### copy_in_string (syscall.c) -/

/-- The loop of copy_in_string (syscall.c).  User memory is a partial
    byte map um (none marks an unmapped address, on which get_user
    faults).  acc is the kernel page contents written so far.  At each
    step the code rejects addresses at or above PHYS_BASE and faulting
    reads - both call process_exit, modelled as none - stores the byte,
    and returns on a terminator.  When the fuel (PGSIZE iterations)
    runs out, the code overwrites the last stored byte, at index
    PGSIZE - 1, with a terminator and returns. -/
def cisAux (um : Nat → Option Nat) : Nat → List Nat → Nat → Option (List Nat)
  | _, acc, 0 => some (acc.dropLast ++ [0])
  | us, acc, fuel + 1 =>
    if PHYS_BASE ≤ us then none
    else
      match um us with
      | none => none
      | some b => if b = 0 then some (acc ++ [0]) else cisAux um (us + 1) (acc ++ [b]) fuel

/-- copy_in_string (syscall.c): allocate a kernel page (allocOk false
    models palloc failure, which calls process_exit) and copy bytes of
    the user string at us until a terminator, truncating at PGSIZE
    bytes.  The result is the meaningful prefix of the kernel copy, up
    to and including its terminator. -/
def copy_in_string (allocOk : Bool) (um : Nat → Option Nat) (us : Nat) :
    Option (List Nat) :=
  if allocOk then cisAux um us [] PGSIZE else none

/-! ### Byte pages and the argv stack frame (process.c) -/

/-- A page of memory: byte value at each page-relative offset. -/
def Page : Type := Nat → Nat

/-- The zeroed page that setup_stack obtains from
    palloc_get_page(PAL_USER | PAL_ZERO). -/
def emptyPage : Page := fun _ => 0

/-- memcpy of a byte list to a page at an offset. -/
def writeBytes : Page → Nat → List Nat → Page
  | p, _, [] => p
  | p, o, b :: bs => writeBytes (fun x => if x = o then b else p x) (o + 1) bs

/-- ROUND_UP(size, sizeof(uint32_t)). -/
def roundUp4 (n : Nat) : Nat := (n + 3) / 4 * 4

/-- push (process.c): push the bytes of buf onto the stack in the page,
    whose page-relative stack pointer is ofs, rounding the pushed size
    up to a 32-bit boundary.  Returns the new page, the new ofs and the
    page-relative address of the pushed object, or none when the stack
    pointer would underflow the page. -/
def push (p : Page) (ofs : Nat) (buf : List Nat) : Option (Page × Nat × Nat) :=
  let padsize := roundUp4 buf.length
  if ofs < padsize then none
  else
    some (writeBytes p (ofs - padsize + (padsize - buf.length)) buf,
          ofs - padsize,
          ofs - padsize + (padsize - buf.length))

/-- Read the 32-bit little-endian word at offset o of a page. -/
def readWord (p : Page) (o : Nat) : Nat :=
  p o + 256 * p (o + 1) + 65536 * p (o + 2) + 16777216 * p (o + 3)

/-- The four little-endian bytes of a 32-bit word. -/
def leBytes32 (w : Nat) : List Nat :=
  [w % 256, w / 256 % 256, w / 65536 % 256, w / 16777216 % 256]

/-- Read the NUL-terminated byte string at offset o of a page (the
    bytes strictly before the first 0), with a fuel bound. -/
def readStr (p : Page) (o : Nat) : Nat → List Nat
  | 0 => []
  | fuel + 1 => if p o = 0 then [] else p o :: readStr p (o + 1) fuel

/-- The strtok_r loop of init_cmd_line viewed functionally: the list of
    tokens of a byte string under the single delimiter ' ' (byte 32),
    each paired with its start offset within the string.  The fuel
    argument (instantiated with the string length) makes the recursion
    structural. -/
def toksF : Nat → List Nat → List (Nat × List Nat)
  | 0, _ => []
  | _, [] => []
  | fuel + 1, b :: rest =>
    if b = 32 then (toksF fuel rest).map (fun pr => (pr.1 + 1, pr.2))
    else
      let t := b :: rest.takeWhile (fun c => c ≠ 32)
      (0, t) :: (toksF fuel (rest.dropWhile (fun c => c ≠ 32))).map
          (fun pr => (pr.1 + t.length, pr.2))

/-- The tokens of a command line, in order, with their start offsets. -/
def tokens (l : List Nat) : List (Nat × List Nat) := toksF l.length l

/-- The in-place effect of the strtok_r loop on the string it scans:
    the one delimiter byte that terminates each token is overwritten
    with 0; all other bytes are unchanged.  Same fuel discipline as
    toksF. -/
def cutTokF : Nat → List Nat → List Nat
  | 0, l => l
  | _, [] => []
  | fuel + 1, b :: rest =>
    if b = 32 then 32 :: cutTokF fuel rest
    else
      let t := rest.takeWhile (fun c => c ≠ 32)
      match rest.dropWhile (fun c => c ≠ 32) with
      | [] => b :: t
      | _ :: r2 => b :: (t ++ 0 :: cutTokF fuel r2)

/-- The command-line string after the strtok_r loop has run over it. -/
def cutTok (l : List Nat) : List Nat := cutTokF l.length l

/-- One word swap of reverse (process.c): exchange the 4-byte words at
    offsets a and b of the page. -/
def swapWord (p : Page) (a b : Nat) : Page :=
  fun x =>
    if a ≤ x ∧ x < a + 4 then p (b + (x - a))
    else if b ≤ x ∧ x < b + 4 then p (a + (x - b))
    else p x

/-- reverse (process.c): reverse the order of the argc 4-byte pointers
    starting at offset o, swapping the outermost pair and recursing
    inward (argc -= 2, argv++). -/
def reverse (p : Page) (o : Nat) : Nat → Page
  | 0 => p
  | 1 => p
  | argc + 2 => reverse (swapWord p o (o + 4 * (argc + 1))) (o + 4) argc

/-- The loop of init_cmd_line that pushes the collected argument
    pointers in index order, as 32-bit little-endian words. -/
def pushArgs (p : Page) (ofs : Nat) : List Nat → Option (Page × Nat)
  | [] => some (p, ofs)
  | a :: rest =>
    match push p ofs (leBytes32 a) with
    | none => none
    | some (q, ofs2, _) => pushArgs q ofs2 rest

/-- The result of init_cmd_line: the final page contents, the
    page-relative offset of the final stack pointer, argc, and the
    page-relative offset of the argv array. -/
structure CmdFrame where
  page : Page
  espOfs : Nat
  argc : Nat
  argvOfs : Nat

/-- init_cmd_line (process.c) on the zeroed stack page mapped at UPAGE.
    cmd is the command line as a byte list (terminator excluded).
    Steps, as in the source: push the command-line string (with its
    terminator); tokenize it in place with strtok_r, collecting for
    each token its user address UPAGE + its page offset (the writes and
    the collected addresses are given by cutTok and tokens); compute
    the alignment adjustment and drop ofs by 16 - adjustment - a size_t
    subtraction, wrapping modulo 2 ^ 32; push the null sentinel, the
    argument pointers in order, reverse the pushed pointer array in
    place; push the argv pointer, argc and the zero fake return
    address.  The C loop stores at most MAX_ARGS argument pointers into
    a fixed array; command lines within the claims' bounds produce at
    most MAX_ARGS tokens. -/
def init_cmd_line (cmd : List Nat) : Option CmdFrame :=
  match push emptyPage PGSIZE (cmd ++ [0]) with
  | none => none
  | some (p1, ofs1, strOfs) =>
    let p2 := writeBytes p1 strOfs (cutTok cmd)
    let args := (tokens cmd).map (fun st => UPAGE + strOfs + st.1)
    let argc := args.length
    let adj := ((PGSIZE - ofs1) + (argc + 1) * 4 + 4 + 4) % 16
    let ofs2 := (ofs1 + U32 - (16 - adj)) % U32
    match push p2 ofs2 (leBytes32 0) with
    | none => none
    | some (p3, ofs3, _) =>
      match pushArgs p3 ofs3 args with
      | none => none
      | some (p4, ofs4) =>
        let argvAddr := UPAGE + ofs4
        let p5 := reverse p4 ofs4 argc
        match push p5 ofs4 (leBytes32 argvAddr) with
        | none => none
        | some (p6, ofs6, _) =>
          match push p6 ofs6 (leBytes32 argc) with
          | none => none
          | some (p7, ofs7, _) =>
            match push p7 ofs7 (leBytes32 0) with
            | none => none
            | some (p8, ofs8, _) => some ⟨p8, ofs8, argc, ofs4⟩

/-- The claims' bound on a command line: its string together with the
    alignment padding fits in the stack page, and its tokens fit in the
    fixed argument array. -/
def Fits (cmd : List Nat) : Prop :=
  roundUp4 (cmd.length + 1) + 16 ≤ PGSIZE ∧ (tokens cmd).length ≤ MAX_ARGS

/-- Read the NUL-terminated string at a user virtual address through
    the single stack-page mapping at UPAGE. -/
def readUserStr (p : Page) (uaddr : Nat) : List Nat :=
  readStr p (uaddr - UPAGE) PGSIZE

end Pintos

namespace Pintos

/-! ### Helper lemmas -/

/-- A wait on a pid matched by no entry of the children list returns -1
    and leaves the list unchanged, touching no semaphore. -/
theorem process_wait_of_no_match (l : List WaitStatus) (pid : Nat)
    (h : ∀ d ∈ l, d.pid ≠ pid) : process_wait l pid = some (-1, l) := by
  induction l with
  | nil => rfl
  | cons c rest ih =>
    have hc : c.pid ≠ pid := h c (List.mem_cons_self c rest)
    have hrest : ∀ d ∈ rest, d.pid ≠ pid := fun d hd => h d (List.mem_cons_of_mem c hd)
    simp [process_wait, hc, ih hrest]

/-- A join on a tid matched by no un-waited entry of the join-status
    list returns TID_ERROR and leaves the list unchanged. -/
theorem pthread_join_of_no_match (l : List JoinStatus) (tid : Nat)
    (h : ∀ d ∈ l, d.tid = tid → d.waited_on = true) :
    pthread_join l tid = (TID_ERROR, l) := by
  induction l with
  | nil => rfl
  | cons j rest ih =>
    have hj : ¬ (j.tid = tid ∧ j.waited_on = false) := by
      rintro ⟨h1, h2⟩
      have := h j (List.mem_cons_self j rest) h1
      rw [this] at h2
      exact Bool.noConfusion h2
    have hrest : ∀ d ∈ rest, d.tid = tid → d.waited_on = true :=
      fun d hd => h d (List.mem_cons_of_mem j hd)
    simp [pthread_join, hj, ih hrest]

/-! ### Claim theorems -/

/-- C1. For every child process C spawned via exec, the parent's first
    wait on C returns C's exit code once C has stored it (dead
    semaphore upped), removing C's wait status from the children list;
    every subsequent wait on C's pid, and any wait on a pid that is not
    a live un-waited child, returns -1 immediately without blocking. -/
theorem process_wait_exactly_once (pre post : List WaitStatus) (c : WaitStatus) (pid : Nat)
    (hc : c.pid = pid) (hothers : ∀ d ∈ pre ++ post, d.pid ≠ pid) (hdead : 1 ≤ c.dead) :
    process_wait (pre ++ c :: post) pid = some (c.exit_code, pre ++ post) ∧
    process_wait (pre ++ post) pid = some (-1, pre ++ post) := by
  constructor
  · induction pre with
    | nil =>
      have : c.dead ≠ 0 := by omega
      simp [process_wait, hc, this]
    | cons d pre ih =>
      have hd : d.pid ≠ pid := hothers d (by simp)
      have hpre : ∀ e ∈ pre ++ post, e.pid ≠ pid := fun e he => hothers e (by
        rcases List.mem_append.mp he with h | h
        · exact List.mem_append.mpr (Or.inl (List.mem_cons_of_mem d h))
        · exact List.mem_append.mpr (Or.inr h))
      simp [process_wait, hd, ih hpre]
  · exact process_wait_of_no_match _ _ hothers

/-- C1 witness: a parent with children of pids 5 and 9; the first wait
    on 9 returns its stored exit code 42 and removes the record, the
    next wait on 9 returns -1. -/
theorem process_wait_exactly_once_witness :
    process_wait [⟨5, 7, 1, 2⟩, ⟨9, 42, 1, 2⟩] 9 = some (42, [⟨5, 7, 1, 2⟩]) ∧
    process_wait [⟨5, 7, 1, 2⟩] 9 = some (-1, [⟨5, 7, 1, 2⟩]) :=
  process_wait_exactly_once [⟨5, 7, 1, 2⟩] [] ⟨9, 42, 1, 2⟩ 9 rfl (by decide) (by decide)

/-- C2. For every user thread T in a process, the first pthread_join
    on T's tid that finds its un-waited join status consumes it -
    removing it from the list - and returns T's tid; every subsequent
    join on the same tid, and any join on a tid with no matching
    un-waited join status, returns TID_ERROR without blocking. -/
theorem pthread_join_exactly_once (pre post : List JoinStatus) (j : JoinStatus) (tid : Nat)
    (hj : j.tid = tid) (hw : j.waited_on = false)
    (hothers : ∀ d ∈ pre ++ post, d.tid = tid → d.waited_on = true) :
    pthread_join (pre ++ j :: post) tid = ((tid : Int), pre ++ post) ∧
    pthread_join (pre ++ post) tid = (TID_ERROR, pre ++ post) := by
  constructor
  · induction pre with
    | nil => simp [pthread_join, hj, hw]
    | cons d pre ih =>
      have hd : ¬ (d.tid = tid ∧ d.waited_on = false) := by
        rintro ⟨h1, h2⟩
        have := hothers d (by simp) h1
        rw [this] at h2
        exact Bool.noConfusion h2
      have hpre : ∀ e ∈ pre ++ post, e.tid = tid → e.waited_on = true := fun e he => hothers e (by
        rcases List.mem_append.mp he with h | h
        · exact List.mem_append.mpr (Or.inl (List.mem_cons_of_mem d h))
        · exact List.mem_append.mpr (Or.inr h))
      simp [pthread_join, hd, ih hpre]
  · exact pthread_join_of_no_match _ _ hothers

/-- C2 witness: a join-status list with an already-waited entry for
    tid 4 and a fresh entry for tid 7; joining 7 succeeds once and
    returns TID_ERROR afterwards. -/
theorem pthread_join_exactly_once_witness :
    pthread_join [⟨4, true, 2, 1⟩, ⟨7, false, 2, 0⟩] 7 = ((7 : Int), [⟨4, true, 2, 1⟩]) ∧
    pthread_join [⟨4, true, 2, 1⟩] 7 = (TID_ERROR, [⟨4, true, 2, 1⟩]) :=
  pthread_join_exactly_once [⟨4, true, 2, 1⟩] [] ⟨7, false, 2, 0⟩ 7 rfl rfl (by decide)

/-- C4. The join-status record start_process builds for the main
    thread is pushed onto the join-status list with its reference count
    still at the calloc value 0, not 1 as specified: the code never
    assigns ref_cnt on this path. -/
theorem mainJoinStatus_ref_cnt_is_zero :
    (mainJoinStatus 3).ref_cnt = 0 ∧ (mainJoinStatus 3).ref_cnt ≠ 1 := by decide

/-- C7. validate_segment returns false exactly when one of the
    specification's rejection conditions holds, and true otherwise. -/
theorem validate_segment_false_iff (phdr : Phdr) (file_len : Nat) :
    validate_segment phdr file_len = false ↔ segmentRejectSpec phdr file_len := by
  unfold validate_segment segmentRejectSpec
  split_ifs with h1 h2 h3 h4 h5 h6 h7 h8 <;> simp_all

end Pintos

namespace Pintos

/-- C6 counterexample: the claim, as stated, fails for the slot's
    creator.  sys_lock_init records the creator's tid as the owner, so
    a lock_release by the creator that never acquired the lock passes
    the ownership guard and reaches the primitive lock_release, whose
    held-by-caller assertion panics the kernel (none) instead of
    returning false. -/
theorem sys_lock_release_creator_panics :
    (lockInitSlot 1).initialized = true ∧
    sys_lock_release 1 (lockInitSlot 1) = none ∧
    sys_lock_release 1 (lockInitSlot 1) ≠ some (false, lockInitSlot 1) := by decide

/-- C6 (amended). A lock_release by thread t directly after t's own
    successful lock_acquire returns true (releasing the primitive lock
    and clearing the owner), and a lock_release by a thread whose tid
    differs from the slot's recorded owner returns false; but a
    release without prior acquire by the recorded owner itself (the
    creator after init, or a past owner) hits the primitive release
    assertion instead of returning false. -/
theorem sys_lock_release_after_acquire (t : Nat) (s s2 : ThreadLock) :
    (sys_lock_acquire t s = some (true, s2) →
      sys_lock_release t s2 = some (true, { s2 with holder := none, tid := 0 })) ∧
    (s.tid ≠ t → sys_lock_release t s = some (false, s)) := by
  constructor
  · intro h
    unfold sys_lock_acquire at h
    split_ifs at h with h1 h2
    · exact absurd (Option.some.inj h) (by simp)
    · exact absurd (Option.some.inj h) (by simp)
    · rcases hs : s.holder with _ | u
      · rw [hs] at h
        simp only [Option.some.injEq, Prod.mk.injEq, true_and] at h
        rw [← h]
        simp only [ne_eq, not_not] at h1
        unfold sys_lock_release
        simp [h1]
      · rw [hs] at h
        exact Option.noConfusion h
  · intro h
    unfold sys_lock_release
    rw [if_pos (Or.inl h)]

/-- C6 witness: thread 1 acquires the fresh lock slot created by
    thread 5 and then releases it successfully; thread 2, which never
    acquired, gets false from release. -/
theorem sys_lock_release_after_acquire_witness :
    sys_lock_release 1 { initialized := true, tid := 1, holder := some 1 } =
      some (true, { initialized := true, tid := 0, holder := none }) ∧
    sys_lock_release 2 (lockInitSlot 5) = some (false, lockInitSlot 5) :=
  ⟨(sys_lock_release_after_acquire 1 (lockInitSlot 5)
      { initialized := true, tid := 1, holder := some 1 }).1 (by decide),
   (sys_lock_release_after_acquire 2 (lockInitSlot 5) (lockInitSlot 5)).2 (by decide)⟩

/-- C8. At process bootstrap the offset bitmap (slots 0 and 1 set, no
    live peer stacks) satisfies the specified invariant; one run of
    setup_thread whose install_page fails claims slot 2 in the bitmap,
    returns false, and never releases the slot, leaving a state in
    which slot 2 is marked but owns no live user stack - the invariant
    is broken on this failure path, contradicting setup_thread's own
    contract of cleaning up on failure. -/
theorem setup_thread_failure_breaks_offset_inv :
    OffsetInv { offsets := fun j => decide (j < 2), liveStacks := [] } ∧
    setup_thread { offsets := fun j => decide (j < 2), liveStacks := [] } true false true =
      some (false, { offsets := fun j => if j = 2 then true else decide (j < 2),
                     liveStacks := [] }) ∧
    ¬ OffsetInv { offsets := fun j => if j = 2 then true else decide (j < 2),
                  liveStacks := [] } := by
  refine ⟨⟨rfl, rfl, ?_⟩, rfl, ?_⟩
  · intro i h2 h256
    simp only [List.mem_nil_iff, iff_false]
    simp only [decide_eq_true_eq]
    omega
  · rintro ⟨-, -, h⟩
    have h2 := (h 2 (by norm_num) (by norm_num)).mp (by simp)
    simp at h2

/-! ### get_lowest_offset lemmas -/

/-- The scan starting at slot i finds the least free slot at or above
    i, provided it lies within the remaining fuel. -/
theorem gloAux_found (o : Nat → Bool) :
    ∀ fuel i k, i ≤ k → k < i + fuel → o k = false →
      (∀ j, i ≤ j → j < k → o j = true) →
      gloAux o i fuel = some (k, fun j => if j = k then true else o j) := by
  intro fuel
  induction fuel with
  | zero => intro i k h1 h2; omega
  | succ fuel ih =>
    intro i k h1 h2 hk hmin
    by_cases hi : o i = false
    · have : k = i := by
        by_contra hne
        have : i < k := by omega
        have := hmin i (le_refl i) this
        rw [this] at hi
        exact Bool.noConfusion hi
      subst this
      simp [gloAux, hi]
    · have hoi : o i = true := by
        cases h : o i
        · exact absurd h hi
        · rfl
      have hik : i ≠ k := by
        intro h
        rw [h] at hoi
        rw [hoi] at hk
        exact Bool.noConfusion hk
      simp only [gloAux, hoi]
      simp only [Bool.true_eq_false, if_false]
      exact ih (i + 1) k (by omega) (by omega) hk (fun j hj1 hj2 => hmin j (by omega) hj2)

/-- The scan starting at slot i runs off its fuel when every slot it
    visits is taken. -/
theorem gloAux_exhausted (o : Nat → Bool) :
    ∀ fuel i, (∀ j, i ≤ j → j < i + fuel → o j = true) → gloAux o i fuel = none := by
  intro fuel
  induction fuel with
  | zero => intro i h; rfl
  | succ fuel ih =>
    intro i h
    have hoi : o i = true := h i (le_refl i) (by omega)
    simp only [gloAux, hoi]
    simp only [Bool.true_eq_false, if_false]
    exact ih (i + 1) (fun j hj1 hj2 => h j (by omega) (by omega))

/-- C9. On a bitmap with slots 0 and 1 set (as at bootstrap), whenever
    some slot below 256 is free, get_lowest_offset returns the smallest
    free index - necessarily at least 2 - and flips exactly that slot
    to true; when all 256 slots are taken it reaches NOT_REACHED and
    panics the kernel (none) instead of returning an error to
    pt_create. -/
theorem get_lowest_offset_spec (o : Nat → Bool) (h0 : o 0 = true) (h1 : o 1 = true) :
    ((∃ k, k < 256 ∧ o k = false) →
      ∃ i, i < 256 ∧ o i = false ∧ (∀ j, j < i → o j = true) ∧ 2 ≤ i ∧
        get_lowest_offset o = some (i, fun j => if j = i then true else o j)) ∧
    ((∀ j, j < 256 → o j = true) → get_lowest_offset o = none) := by
  constructor
  · rintro ⟨k, hk, hkf⟩
    have hex : ∃ n, o n = false := ⟨k, hkf⟩
    let i := Nat.find hex
    have hif : o i = false := Nat.find_spec hex
    have hmin : ∀ j, j < i → o j = true := by
      intro j hj
      have := Nat.find_min hex hj
      cases h : o j
      · exact absurd h this
      · rfl
    have hi256 : i < 256 := lt_of_le_of_lt (Nat.find_min' hex hkf) hk
    have hi2 : 2 ≤ i := by
      rcases Nat.lt_or_ge i 2 with h | h
      · interval_cases i
        · rw [h0] at hif; exact Bool.noConfusion hif
        · rw [h1] at hif; exact Bool.noConfusion hif
      · exact h
    exact ⟨i, hi256, hif, hmin, hi2,
      gloAux_found o 256 0 i (Nat.zero_le i) (by omega) hif (fun j _ hj => hmin j hj)⟩
  · intro h
    exact gloAux_exhausted o 256 0 (fun j _ hj => h j (by omega))

/-- C9 witness: at bootstrap (only slots 0 and 1 taken) the scan hands
    out slot 2. -/
theorem get_lowest_offset_spec_witness :
    ∃ i, i < 256 ∧ (fun j => decide (j < 2)) i = false ∧
      (∀ j, j < i → (fun j => decide (j < 2)) j = true) ∧ 2 ≤ i ∧
      get_lowest_offset (fun j => decide (j < 2)) =
        some (i, fun j2 => if j2 = i then true else decide (j2 < 2)) :=
  (get_lowest_offset_spec (fun j => decide (j < 2)) (by decide) (by decide)).1
    ⟨2, by decide, by decide⟩

end Pintos

namespace Pintos

/-! ### copy_in_string lemmas -/

/-- Running the copy loop over a stretch of mapped, terminator-free
    user bytes consumes its whole fuel and then null-terminates the
    last byte slot. -/
theorem cisAux_spec (um : Nat → Option Nat) :
    ∀ fuel us acc (f : Nat → Nat),
      (∀ k, k < fuel → um (us + k) = some (f k) ∧ f k ≠ 0) →
      us + fuel ≤ PHYS_BASE →
      cisAux um us acc fuel = some ((acc ++ (List.range fuel).map f).dropLast ++ [0]) := by
  intro fuel
  induction fuel with
  | zero => intro us acc f h hr; simp [cisAux]
  | succ fuel ih =>
    intro us acc f h hr
    have hus : ¬ PHYS_BASE ≤ us := by omega
    have h0 := h 0 (by omega)
    rw [Nat.add_zero] at h0
    have hrec := ih (us + 1) (acc ++ [f 0]) (fun k => f (k + 1))
      (fun k hk => by
        show um (us + 1 + k) = some (f (k + 1)) ∧ f (k + 1) ≠ 0
        rw [show us + 1 + k = us + (k + 1) by omega]
        exact h (k + 1) (by omega))
      (by omega)
    simp only [cisAux, if_neg hus, h0.1, if_neg h0.2]
    rw [hrec]
    congr 2
    rw [List.range_succ_eq_map, List.map_cons, List.map_map, List.append_assoc]
    rfl

/-- C10. When the user string has no terminator within its first
    PGSIZE bytes (all of them mapped and below PHYS_BASE),
    copy_in_string returns normally - the syscall proceeds - with the
    kernel copy being exactly the first PGSIZE - 1 user bytes followed
    by the forced terminator. -/
theorem copy_in_string_truncates (um : Nat → Option Nat) (us : Nat) (f : Nat → Nat)
    (hbytes : ∀ k, k < PGSIZE → um (us + k) = some (f k) ∧ f k ≠ 0)
    (hrange : us + PGSIZE ≤ PHYS_BASE) :
    copy_in_string true um us =
      some (((List.range PGSIZE).map f).take (PGSIZE - 1) ++ [0]) := by
  have h1 : copy_in_string true um us = cisAux um us [] PGSIZE := by
    unfold copy_in_string
    simp
  rw [h1, cisAux_spec um PGSIZE us [] f hbytes hrange]
  have h2 : (([] : List Nat) ++ (List.range PGSIZE).map f).dropLast
      = ((List.range PGSIZE).map f).take (PGSIZE - 1) := by
    rw [List.nil_append, List.dropLast_eq_take, List.length_map, List.length_range]
  rw [h2]

/-- C10 witness: a user string of 4096 bytes 65 with no terminator is
    truncated to 4095 bytes plus a forced terminator. -/
theorem copy_in_string_truncates_witness :
    copy_in_string true (fun _ => some 65) 0 =
      some (((List.range PGSIZE).map (fun _ => 65)).take (PGSIZE - 1) ++ [0]) :=
  copy_in_string_truncates (fun _ => some 65) 0 (fun _ => 65)
    (fun k hk => ⟨rfl, by norm_num⟩) (by norm_num [PGSIZE, PHYS_BASE])

end Pintos

namespace Pintos

/-! ### Page and push lemmas -/

theorem roundUp4_ge (n : Nat) : n ≤ roundUp4 n := by
  unfold roundUp4
  omega

theorem roundUp4_lt (n : Nat) : roundUp4 n < n + 4 := by
  unfold roundUp4
  omega

theorem writeBytes_of_lt : ∀ (bs : List Nat) (p : Page) (o x : Nat), x < o →
    writeBytes p o bs x = p x := by
  intro bs
  induction bs with
  | nil => intro p o x h; rfl
  | cons b bs ih =>
    intro p o x h
    show writeBytes (fun y => if y = o then b else p y) (o + 1) bs x = p x
    rw [ih _ (o + 1) x (by omega)]
    simp only [if_neg (by omega : ¬ x = o)]

theorem writeBytes_of_ge : ∀ (bs : List Nat) (p : Page) (o x : Nat), o + bs.length ≤ x →
    writeBytes p o bs x = p x := by
  intro bs
  induction bs with
  | nil => intro p o x h; rfl
  | cons b bs ih =>
    intro p o x h
    simp only [List.length_cons] at h
    show writeBytes (fun y => if y = o then b else p y) (o + 1) bs x = p x
    rw [ih _ (o + 1) x (by omega)]
    simp only [if_neg (by omega : ¬ x = o)]

theorem writeBytes_getD : ∀ (bs : List Nat) (p : Page) (o k : Nat), k < bs.length →
    writeBytes p o bs (o + k) = bs.getD k 0 := by
  intro bs
  induction bs with
  | nil => intro p o k h; simp at h
  | cons b bs ih =>
    intro p o k h
    show writeBytes (fun y => if y = o then b else p y) (o + 1) bs (o + k) = _
    match k with
    | 0 =>
      rw [writeBytes_of_lt bs _ (o + 1) (o + 0) (by omega)]
      simp
    | k + 1 =>
      simp only [List.length_cons] at h
      have := ih (fun y => if y = o then b else p y) (o + 1) k (by omega)
      rw [show o + (k + 1) = o + 1 + k by omega]
      rw [this]
      rfl

theorem push_some (p : Page) (ofs : Nat) (buf : List Nat)
    (h : roundUp4 buf.length ≤ ofs) :
    push p ofs buf =
      some (writeBytes p (ofs - buf.length) buf, ofs - roundUp4 buf.length,
            ofs - buf.length) := by
  have hlen := roundUp4_ge buf.length
  unfold push
  rw [if_neg (by omega)]
  have : ofs - roundUp4 buf.length + (roundUp4 buf.length - buf.length) =
      ofs - buf.length := by omega
  rw [this]

theorem push_elim (p : Page) (ofs : Nat) (buf : List Nat) (q : Page) (o2 ptr : Nat)
    (h : push p ofs buf = some (q, o2, ptr)) :
    roundUp4 buf.length ≤ ofs ∧ q = writeBytes p (ofs - buf.length) buf ∧
      o2 = ofs - roundUp4 buf.length ∧ ptr = ofs - buf.length := by
  by_cases hc : ofs < roundUp4 buf.length
  · unfold push at h
    rw [if_pos hc] at h
    exact Option.noConfusion h
  · rw [push_some p ofs buf (by omega)] at h
    injection h with h1
    injection h1 with h2 h3
    injection h3 with h4 h5
    exact ⟨by omega, h2.symm, h4.symm, h5.symm⟩

theorem leBytes32_length (w : Nat) : (leBytes32 w).length = 4 := rfl

theorem roundUp4_four : roundUp4 4 = 4 := rfl

theorem readWord_writeBytes_leBytes32 (p : Page) (o w : Nat) (h : w < U32) :
    readWord (writeBytes p o (leBytes32 w)) o = w := by
  have h0 := writeBytes_getD (leBytes32 w) p o 0 (by simp [leBytes32])
  have h1 := writeBytes_getD (leBytes32 w) p o 1 (by simp [leBytes32])
  have h2 := writeBytes_getD (leBytes32 w) p o 2 (by simp [leBytes32])
  have h3 := writeBytes_getD (leBytes32 w) p o 3 (by simp [leBytes32])
  rw [Nat.add_zero] at h0
  unfold readWord
  rw [h0, h1, h2, h3]
  show w % 256 + 256 * (w / 256 % 256) + 65536 * (w / 65536 % 256) +
      16777216 * (w / 16777216 % 256) = w
  unfold U32 at h
  omega

theorem readWord_congr4 (p q : Page) (o : Nat)
    (h : ∀ k, k < 4 → p (o + k) = q (o + k)) : readWord p o = readWord q o := by
  have h0 := h 0 (by omega)
  have h1 := h 1 (by omega)
  have h2 := h 2 (by omega)
  have h3 := h 3 (by omega)
  rw [Nat.add_zero] at h0
  unfold readWord
  rw [h0, h1, h2, h3]

/-! ### readStr -/

theorem readStr_exact : ∀ (t : List Nat) (p : Page) (o fuel : Nat),
    (∀ k, k < t.length → p (o + k) = t.getD k 0) →
    (∀ b ∈ t, b ≠ 0) → p (o + t.length) = 0 → t.length < fuel →
    readStr p o fuel = t := by
  intro t
  induction t with
  | nil =>
    intro p o fuel hbytes hnz hend hfuel
    match fuel with
    | fuel + 1 =>
      simp only [List.length_nil, Nat.add_zero] at hend
      simp [readStr, hend]
  | cons b t ih =>
    intro p o fuel hbytes hnz hend hfuel
    match fuel with
    | fuel + 1 =>
      have hb : p o = b := by
        have := hbytes 0 (by simp)
        rwa [Nat.add_zero] at this
      have hbne : b ≠ 0 := hnz b (by simp)
      show (if p o = 0 then [] else p o :: readStr p (o + 1) fuel) = b :: t
      rw [hb, if_neg hbne]
      congr 1
      refine ih p (o + 1) fuel ?_ (fun c hc => hnz c (by simp [hc])) ?_ ?_
      · intro k hk
        have := hbytes (k + 1) (by simpa using Nat.succ_lt_succ hk)
        rw [show o + (k + 1) = o + 1 + k by omega] at this
        rw [this]
        rfl
      · have := hend
        rw [show o + (b :: t).length = o + 1 + t.length by simp; omega] at this
        exact this
      · simp at hfuel
        omega

end Pintos

namespace Pintos

/-! ### swapWord and reverse lemmas -/

theorem swapWord_of_outside (p : Page) (a b x : Nat)
    (ha : ¬ (a ≤ x ∧ x < a + 4)) (hb : ¬ (b ≤ x ∧ x < b + 4)) :
    swapWord p a b x = p x := by
  unfold swapWord
  rw [if_neg ha, if_neg hb]

theorem swapWord_readWord_first (p : Page) (a b : Nat) :
    readWord (swapWord p a b) a = readWord p b := by
  have e : ∀ k, k < 4 → swapWord p a b (a + k) = p (b + k) := by
    intro k hk
    unfold swapWord
    rw [if_pos ⟨by omega, by omega⟩]
    congr 1
    omega
  have e0 := e 0 (by omega)
  have e1 := e 1 (by omega)
  have e2 := e 2 (by omega)
  have e3 := e 3 (by omega)
  rw [Nat.add_zero] at e0
  rw [Nat.add_zero] at e0
  unfold readWord
  rw [e0, e1, e2, e3]

theorem swapWord_readWord_second (p : Page) (a b : Nat) (hab : a + 4 ≤ b) :
    readWord (swapWord p a b) b = readWord p a := by
  have e : ∀ k, k < 4 → swapWord p a b (b + k) = p (a + k) := by
    intro k hk
    unfold swapWord
    rw [if_neg (by omega), if_pos ⟨by omega, by omega⟩]
    congr 1
    omega
  have e0 := e 0 (by omega)
  have e1 := e 1 (by omega)
  have e2 := e 2 (by omega)
  have e3 := e 3 (by omega)
  rw [Nat.add_zero] at e0
  rw [Nat.add_zero] at e0
  unfold readWord
  rw [e0, e1, e2, e3]

theorem reverse_frame : ∀ (n : Nat) (p : Page) (o x : Nat),
    (x < o ∨ o + 4 * n ≤ x) → reverse p o n x = p x := by
  intro n
  induction n using Nat.strong_induction_on with
  | _ n ih =>
    match n with
    | 0 => intro p o x h; rfl
    | 1 => intro p o x h; rfl
    | m + 2 =>
      intro p o x h
      show reverse (swapWord p o (o + 4 * (m + 1))) (o + 4) m x = _
      rw [ih m (by omega) _ _ _ (by omega)]
      exact swapWord_of_outside p o (o + 4 * (m + 1)) x (by omega) (by omega)

theorem reverse_readWord : ∀ (n : Nat) (p : Page) (o i : Nat), i < n →
    readWord (reverse p o n) (o + 4 * i) = readWord p (o + 4 * (n - 1 - i)) := by
  intro n
  induction n using Nat.strong_induction_on with
  | _ n ih =>
    match n with
    | 0 => intro p o i h; omega
    | 1 =>
      intro p o i h
      have : i = 0 := by omega
      subst this
      rfl
    | m + 2 =>
      intro p o i h
      show readWord (reverse (swapWord p o (o + 4 * (m + 1))) (o + 4) m) (o + 4 * i) = _
      match i, h with
      | 0, _ =>
        have hagree : ∀ k, k < 4 →
            reverse (swapWord p o (o + 4 * (m + 1))) (o + 4) m (o + 4 * 0 + k) =
            swapWord p o (o + 4 * (m + 1)) (o + 4 * 0 + k) := by
          intro k hk
          exact reverse_frame m _ (o + 4) _ (by omega)
        rw [readWord_congr4 _ _ _ hagree]
        have : o + 4 * 0 = o := by omega
        rw [this, swapWord_readWord_first]
        congr 1
      | i + 1, _ =>
        by_cases hlast : i + 1 = m + 1
        · have hi : i = m := by omega
          subst hi
          have hagree : ∀ k, k < 4 →
              reverse (swapWord p o (o + 4 * (i + 1))) (o + 4) i (o + 4 * (i + 1) + k) =
              swapWord p o (o + 4 * (i + 1)) (o + 4 * (i + 1) + k) := by
            intro k hk
            exact reverse_frame i _ (o + 4) _ (by omega)
          rw [readWord_congr4 _ _ _ hagree]
          rw [swapWord_readWord_second p o (o + 4 * (i + 1)) (by omega)]
          congr 1
          omega
        · have hi : i + 1 ≤ m := by omega
          have hrw : o + 4 * (i + 1) = (o + 4) + 4 * i := by omega
          rw [hrw, ih m (by omega) _ (o + 4) i (by omega)]
          have hmid : (o + 4) + 4 * (m - 1 - i) = o + 4 * (m - i) := by omega
          rw [hmid]
          have hagree : ∀ k, k < 4 →
              swapWord p o (o + 4 * (m + 1)) (o + 4 * (m - i) + k) =
              p (o + 4 * (m - i) + k) := by
            intro k hk
            exact swapWord_of_outside p _ _ _ (by omega) (by omega)
          rw [readWord_congr4 _ _ _ hagree]
          congr 1
          omega

/-! ### pushArgs lemmas -/

theorem pushArgs_spec : ∀ (args : List Nat) (p : Page) (ofs : Nat) (q : Page) (ofs2 : Nat),
    pushArgs p ofs args = some (q, ofs2) →
    ofs2 = ofs - 4 * args.length ∧ 4 * args.length ≤ ofs ∧
    (∀ x, ofs ≤ x → q x = p x) ∧
    (∀ x, x < ofs - 4 * args.length → q x = p x) ∧
    (∀ j, j < args.length → args.getD j 0 < U32 →
      readWord q (ofs - 4 * (j + 1)) = args.getD j 0) := by
  intro args
  induction args with
  | nil =>
    intro p ofs q ofs2 h
    injection h with h1
    injection h1 with h2 h3
    subst h2
    subst h3
    refine ⟨by simp, by simp, fun x _ => rfl, fun x _ => rfl, ?_⟩
    intro j hj
    simp at hj
  | cons a rest ih =>
    intro p ofs q ofs2 h
    unfold pushArgs at h
    rcases hp : push p ofs (leBytes32 a) with _ | ⟨q1, o1, ptr⟩
    · rw [hp] at h
      exact Option.noConfusion h
    · rw [hp] at h
      obtain ⟨hle, hq1, ho1, hptr⟩ := push_elim p ofs (leBytes32 a) q1 o1 ptr hp
      rw [leBytes32_length, roundUp4_four] at hle ho1
      rw [leBytes32_length] at hq1
      obtain ⟨h1, h2, h3, h4, h5⟩ := ih q1 o1 q ofs2 h
      subst ho1
      have hlen : (a :: rest).length = rest.length + 1 := by simp
      refine ⟨by rw [hlen]; omega, by rw [hlen]; omega, ?_, ?_, ?_⟩
      · intro x hx
        rw [h3 x (by omega), hq1]
        exact writeBytes_of_ge (leBytes32 a) p (ofs - 4) x (by rw [leBytes32_length]; omega)
      · intro x hx
        rw [hlen] at hx
        rw [h4 x (by omega), hq1]
        exact writeBytes_of_lt (leBytes32 a) p (ofs - 4) x (by omega)
      · intro j hj ha
        match j with
        | 0 =>
          have hagree : ∀ k, k < 4 → q (ofs - 4 * (0 + 1) + k) = q1 (ofs - 4 * (0 + 1) + k) := by
            intro k hk
            exact h3 _ (by omega)
          rw [readWord_congr4 _ _ _ hagree, hq1]
          have : ofs - 4 * (0 + 1) = ofs - 4 := by omega
          rw [this]
          exact readWord_writeBytes_leBytes32 p (ofs - 4) a (by simpa using ha)
        | j + 1 =>
          rw [hlen] at hj
          have hv : (a :: rest).getD (j + 1) 0 = rest.getD j 0 := rfl
          rw [hv]
          rw [hv] at ha
          have := h5 j (by omega) ha
          rw [show ofs - 4 * (j + 1 + 1) = ofs - 4 - 4 * (j + 1) by omega]
          exact this

end Pintos

namespace Pintos

/-! ### Tokenization lemmas -/

theorem toksF_nil : ∀ fuel, toksF fuel [] = [] := by
  intro fuel
  cases fuel <;> rfl

theorem toksF_succ (fuel b : Nat) (rest : List Nat) :
    toksF (fuel + 1) (b :: rest) =
      if b = 32 then (toksF fuel rest).map (fun pr => (pr.1 + 1, pr.2))
      else
        (0, b :: rest.takeWhile (fun c => c ≠ 32)) ::
          (toksF fuel (rest.dropWhile (fun c => c ≠ 32))).map
            (fun pr => (pr.1 + (b :: rest.takeWhile (fun c => c ≠ 32)).length, pr.2)) := rfl

theorem cutTokF_nil : ∀ fuel, cutTokF fuel [] = [] := by
  intro fuel
  cases fuel <;> rfl

theorem cutTokF_succ (fuel b : Nat) (rest : List Nat) :
    cutTokF (fuel + 1) (b :: rest) =
      if b = 32 then 32 :: cutTokF fuel rest
      else
        match rest.dropWhile (fun c => c ≠ 32) with
        | [] => b :: rest.takeWhile (fun c => c ≠ 32)
        | _ :: r2 => b :: (rest.takeWhile (fun c => c ≠ 32) ++ 0 :: cutTokF fuel r2) := rfl

theorem toksF_fuel : ∀ (fuel : Nat) (l : List Nat), l.length ≤ fuel →
    toksF fuel l = tokens l := by
  intro fuel
  induction fuel using Nat.strong_induction_on with
  | _ fuel ih =>
    intro l hl
    match fuel, l with
    | fuel, [] => rw [toksF_nil]; rfl
    | 0, b :: rest => simp at hl
    | fuel + 1, b :: rest =>
      have hr : rest.length ≤ fuel := by simp at hl; omega
      show toksF (fuel + 1) (b :: rest) = toksF (rest.length + 1) (b :: rest)
      rw [toksF_succ, toksF_succ]
      by_cases hb : b = 32
      · rw [if_pos hb, if_pos hb, ih fuel (by omega) rest hr]
        rfl
      · rw [if_neg hb, if_neg hb]
        have hd : (rest.dropWhile (fun c => c ≠ 32)).length ≤ rest.length :=
          (List.dropWhile_sublist _).length_le
        rw [ih fuel (by omega) _ (le_trans hd hr), ih rest.length (by omega) _ hd]

theorem cutTokF_fuel : ∀ (fuel : Nat) (l : List Nat), l.length ≤ fuel →
    cutTokF fuel l = cutTok l := by
  intro fuel
  induction fuel using Nat.strong_induction_on with
  | _ fuel ih =>
    intro l hl
    match fuel, l with
    | fuel, [] => rw [cutTokF_nil]; rfl
    | 0, b :: rest => simp at hl
    | fuel + 1, b :: rest =>
      have hr : rest.length ≤ fuel := by simp at hl; omega
      show cutTokF (fuel + 1) (b :: rest) = cutTokF (rest.length + 1) (b :: rest)
      rw [cutTokF_succ, cutTokF_succ]
      by_cases hb : b = 32
      · rw [if_pos hb, if_pos hb, ih fuel (by omega) rest hr]
        rfl
      · rw [if_neg hb, if_neg hb]
        rcases hd : rest.dropWhile (fun c => c ≠ 32) with _ | ⟨x, r2⟩
        · simp only [hd]
        · simp only [hd]
          have hlen : r2.length + 1 ≤ rest.length := by
            have := (List.dropWhile_sublist (l := rest) (fun c => c ≠ 32)).length_le
            rw [hd] at this
            simpa using this
          rw [ih fuel (by omega) r2 (by omega), ih rest.length (by omega) r2 (by omega)]

theorem tokens_cons32 (rest : List Nat) :
    tokens (32 :: rest) = (tokens rest).map (fun pr => (pr.1 + 1, pr.2)) := by
  show toksF (rest.length + 1) (32 :: rest) = _
  rw [toksF_succ, if_pos rfl]
  rfl

theorem tokens_cons_ne (b : Nat) (rest : List Nat) (hb : ¬ b = 32) :
    tokens (b :: rest) =
      (0, b :: rest.takeWhile (fun c => c ≠ 32)) ::
        (tokens (rest.dropWhile (fun c => c ≠ 32))).map
          (fun pr => (pr.1 + (b :: rest.takeWhile (fun c => c ≠ 32)).length, pr.2)) := by
  show toksF (rest.length + 1) (b :: rest) = _
  rw [toksF_succ, if_neg hb]
  rw [toksF_fuel rest.length _ ((List.dropWhile_sublist _).length_le)]

theorem cutTok_cons32 (rest : List Nat) : cutTok (32 :: rest) = 32 :: cutTok rest := by
  show cutTokF (rest.length + 1) (32 :: rest) = _
  rw [cutTokF_succ, if_pos rfl]
  rfl

theorem cutTok_cons_ne_nil (b : Nat) (rest : List Nat) (hb : ¬ b = 32)
    (hd : rest.dropWhile (fun c => c ≠ 32) = []) :
    cutTok (b :: rest) = b :: rest.takeWhile (fun c => c ≠ 32) := by
  show cutTokF (rest.length + 1) (b :: rest) = _
  rw [cutTokF_succ, if_neg hb]
  simp only [hd]

theorem cutTok_cons_ne_cons (b : Nat) (rest : List Nat) (x : Nat) (r2 : List Nat)
    (hb : ¬ b = 32) (hd : rest.dropWhile (fun c => c ≠ 32) = x :: r2) :
    cutTok (b :: rest) = b :: (rest.takeWhile (fun c => c ≠ 32) ++ 0 :: cutTok r2) := by
  show cutTokF (rest.length + 1) (b :: rest) = _
  rw [cutTokF_succ, if_neg hb]
  simp only [hd]
  have hlen : r2.length + 1 ≤ rest.length := by
    have := (List.dropWhile_sublist (l := rest) (fun c => c ≠ 32)).length_le
    rw [hd] at this
    simpa using this
  rw [cutTokF_fuel rest.length r2 (by omega)]

theorem cutTok_length : ∀ (n : Nat) (l : List Nat), l.length ≤ n →
    (cutTok l).length = l.length := by
  intro n
  induction n using Nat.strong_induction_on with
  | _ n ih =>
    intro l hl
    match l with
    | [] => rfl
    | b :: rest =>
      simp only [List.length_cons] at hl
      by_cases hb : b = 32
      · subst hb
        rw [cutTok_cons32]
        simp only [List.length_cons]
        rw [ih rest.length (by omega) rest (le_refl _)]
      · rcases hd : rest.dropWhile (fun c => c ≠ 32) with _ | ⟨x, r2⟩
        · rw [cutTok_cons_ne_nil b rest hb hd]
          have := congrArg List.length (List.takeWhile_append_dropWhile (fun c => c ≠ 32) rest)
          rw [hd] at this
          simp only [List.length_append, List.length_nil, List.length_cons] at this ⊢
          omega
        · rw [cutTok_cons_ne_cons b rest x r2 hb hd]
          have hsplit := congrArg List.length (List.takeWhile_append_dropWhile (fun c => c ≠ 32) rest)
          rw [hd] at hsplit
          simp only [List.length_append, List.length_cons] at hsplit ⊢
          have hr2 : (cutTok r2).length = r2.length := by
            refine ih r2.length ?_ r2 (le_refl _)
            omega
          omega

end Pintos

namespace Pintos

theorem dropWhile_head32 (rest : List Nat) (x : Nat) (r2 : List Nat)
    (hd : rest.dropWhile (fun c => c ≠ 32) = x :: r2) : x = 32 := by
  have h2 : rest.dropWhile (fun c => c ≠ 32) ≠ [] := by rw [hd]; simp
  have h3 := List.head_dropWhile_not (fun c => c ≠ 32) rest h2
  have h4 : (rest.dropWhile (fun c => c ≠ 32)).head h2 = x := by
    rw [List.head_eq_iff_head?_eq_some, hd]
    rfl
  rw [h4] at h3
  simpa using h3

/-- The central fact about the strtok_r model: each collected token
    start points, inside the cut string (followed by the pushed
    terminator), at the token's bytes followed by a terminator; tokens
    are nonempty, free of the delimiter, and drawn from the input. -/
theorem tokens_spec : ∀ (n : Nat) (l : List Nat), l.length ≤ n →
    ∀ pr ∈ tokens l,
      ∃ tail, (cutTok l ++ [0]).drop pr.1 = pr.2 ++ 0 :: tail ∧ pr.2 ≠ [] ∧
        ∀ b ∈ pr.2, b ≠ 32 ∧ b ∈ l := by
  intro n
  induction n using Nat.strong_induction_on with
  | _ n ih =>
    intro l hl pr hpr
    match l with
    | [] =>
      rw [show tokens ([] : List Nat) = [] from rfl] at hpr
      simp at hpr
    | b :: rest =>
      simp only [List.length_cons] at hl
      by_cases hb : b = 32
      · subst hb
        rw [tokens_cons32] at hpr
        obtain ⟨q, hq, hpr_eq⟩ := List.mem_map.mp hpr
        obtain ⟨tail, hdrop, hne, hmem⟩ := ih rest.length (by omega) rest (le_refl _) q hq
        subst hpr_eq
        refine ⟨tail, ?_, hne, ?_⟩
        · rw [cutTok_cons32, List.cons_append, List.drop_succ_cons]
          exact hdrop
        · intro c hc
          obtain ⟨hc1, hc2⟩ := hmem c hc
          exact ⟨hc1, List.mem_cons_of_mem 32 hc2⟩
      · rw [tokens_cons_ne b rest hb] at hpr
        rcases List.mem_cons.mp hpr with hhead | htail
        · subst hhead
          rcases hd : rest.dropWhile (fun c => c ≠ 32) with _ | ⟨x, r2⟩
          · refine ⟨[], ?_, by simp, ?_⟩
            · rw [cutTok_cons_ne_nil b rest hb hd, List.drop_zero, List.cons_append]
            · intro c hc
              rcases List.mem_cons.mp hc with hc | hc
              · subst hc
                exact ⟨hb, List.mem_cons_self _ _⟩
              · refine ⟨?_, List.mem_cons_of_mem b ((List.takeWhile_sublist _).mem hc)⟩
                have := List.mem_takeWhile_imp hc
                simpa using this
          · refine ⟨cutTok r2 ++ [0], ?_, by simp, ?_⟩
            · rw [cutTok_cons_ne_cons b rest x r2 hb hd, List.drop_zero]
              simp
            · intro c hc
              rcases List.mem_cons.mp hc with hc | hc
              · subst hc
                exact ⟨hb, List.mem_cons_self _ _⟩
              · refine ⟨?_, List.mem_cons_of_mem b ((List.takeWhile_sublist _).mem hc)⟩
                have := List.mem_takeWhile_imp hc
                simpa using this
        · obtain ⟨q, hq, hpr_eq⟩ := List.mem_map.mp htail
          rcases hd : rest.dropWhile (fun c => c ≠ 32) with _ | ⟨x, r2⟩
          · rw [hd] at hq
            rw [show tokens ([] : List Nat) = [] from rfl] at hq
            simp at hq
          · have hx : x = 32 := dropWhile_head32 rest x r2 hd
            subst hx
            rw [hd, tokens_cons32] at hq
            obtain ⟨q2, hq2, hq_eq⟩ := List.mem_map.mp hq
            have hr2len : r2.length + 1 ≤ rest.length := by
              have := (List.dropWhile_sublist (l := rest) (fun c => c ≠ 32)).length_le
              rw [hd] at this
              simpa using this
            obtain ⟨tail, hdrop, hne, hmem⟩ :=
              ih r2.length (by omega) r2 (le_refl _) q2 hq2
            subst hq_eq
            subst hpr_eq
            refine ⟨tail, ?_, hne, ?_⟩
            · rw [cutTok_cons_ne_cons b rest 32 r2 hb hd]
              have hsplit : (b :: (rest.takeWhile (fun c => c ≠ 32) ++ 0 :: cutTok r2)) ++ [0]
                  = (b :: rest.takeWhile (fun c => c ≠ 32)) ++
                      (0 :: (cutTok r2 ++ [0])) := by
                simp
              rw [hsplit]
              have hpos : q2.1 + 1 + (b :: rest.takeWhile (fun c => c ≠ 32)).length =
                  (b :: rest.takeWhile (fun c => c ≠ 32)).length + (q2.1 + 1) := by
                omega
              rw [hpos, List.drop_append, List.drop_succ_cons]
              exact hdrop
            · intro c hc
              obtain ⟨hc1, hc2⟩ := hmem c hc
              refine ⟨hc1, List.mem_cons_of_mem b ?_⟩
              have : c ∈ rest.dropWhile (fun c => c ≠ 32) := by
                rw [hd]
                exact List.mem_cons_of_mem 32 hc2
              exact (List.dropWhile_sublist _).mem this

end Pintos

namespace Pintos

/-- Structural elimination of a successful init_cmd_line run: names the
    intermediate stack offset reached after the alignment adjustment
    (ofs2) and the page produced by the argument-pointer pushes (p4),
    and expresses every component of the result in terms of them. -/
theorem init_cmd_line_struct (cmd : List Nat) (r : CmdFrame)
    (hfit : roundUp4 (cmd.length + 1) + 16 ≤ PGSIZE)
    (hs : init_cmd_line cmd = some r) :
    ∃ (ofs2 : Nat) (p4 : Page),
      ofs2 = PGSIZE - roundUp4 (cmd.length + 1) -
        (16 - ((roundUp4 (cmd.length + 1) + ((tokens cmd).length + 1) * 4 + 4 + 4) % 16)) ∧
      4 * (tokens cmd).length + 16 ≤ ofs2 ∧
      pushArgs
        (writeBytes
          (writeBytes (writeBytes emptyPage (PGSIZE - (cmd.length + 1)) (cmd ++ [0]))
            (PGSIZE - (cmd.length + 1)) (cutTok cmd))
          (ofs2 - 4) (leBytes32 0))
        (ofs2 - 4)
        ((tokens cmd).map (fun st => UPAGE + (PGSIZE - (cmd.length + 1)) + st.1)) =
        some (p4, ofs2 - 4 - 4 * (tokens cmd).length) ∧
      r.argc = (tokens cmd).length ∧
      r.argvOfs = ofs2 - 4 - 4 * (tokens cmd).length ∧
      r.espOfs = r.argvOfs - 12 ∧
      12 ≤ r.argvOfs ∧
      r.page =
        writeBytes
          (writeBytes
            (writeBytes (reverse p4 r.argvOfs (tokens cmd).length)
              (r.argvOfs - 4) (leBytes32 (UPAGE + r.argvOfs)))
            (r.argvOfs - 8) (leBytes32 (tokens cmd).length))
          (r.argvOfs - 12) (leBytes32 0) := by
  have hPG : PGSIZE = 4096 := rfl
  have hU : U32 = 4294967296 := rfl
  have hlen : (cmd ++ [0]).length = cmd.length + 1 := by simp
  unfold init_cmd_line at hs
  split at hs
  · exact Option.noConfusion hs
  · rename_i p1x ofs1x strOfsx heq1
    simp only [] at hs
    obtain ⟨hle1, hp1, ho1, hstr1⟩ := push_elim _ _ _ _ _ _ heq1
    rw [hlen] at hle1 hp1 ho1 hstr1
    subst hp1
    subst ho1
    subst hstr1
    split at hs
    · exact Option.noConfusion hs
    · rename_i p3x ofs3x ptr3x heq3
      split at hs
      · exact Option.noConfusion hs
      · rename_i p4x ofs4x heq4
        split at hs
        · exact Option.noConfusion hs
        · rename_i p6x ofs6x ptr6x heq6
          split at hs
          · exact Option.noConfusion hs
          · rename_i p7x ofs7x ptr7x heq7
            split at hs
            · exact Option.noConfusion hs
            · rename_i p8x ofs8x ptr8x heq8
              simp only [List.length_map] at heq3 heq4 heq6 heq7 hs
              obtain ⟨hle3, hp3, ho3, hptr3⟩ := push_elim _ _ _ _ _ _ heq3
              rw [leBytes32_length, roundUp4_four] at hle3 ho3
              rw [leBytes32_length] at hp3
              subst hp3
              subst ho3
              obtain ⟨ho4, hle4, hfra4, hfrb4, hwords4⟩ := pushArgs_spec _ _ _ _ _ heq4
              simp only [List.length_map] at ho4 hle4
              subst ho4
              obtain ⟨hle6, hp6, ho6, hptr6⟩ := push_elim _ _ _ _ _ _ heq6
              rw [leBytes32_length, roundUp4_four] at hle6 ho6
              rw [leBytes32_length] at hp6
              subst hp6
              subst ho6
              obtain ⟨hle7, hp7, ho7, hptr7⟩ := push_elim _ _ _ _ _ _ heq7
              rw [leBytes32_length, roundUp4_four] at hle7 ho7
              rw [leBytes32_length] at hp7
              subst hp7
              subst ho7
              obtain ⟨hle8, hp8, ho8, hptr8⟩ := push_elim _ _ _ _ _ _ heq8
              rw [leBytes32_length, roundUp4_four] at hle8 ho8
              rw [leBytes32_length] at hp8
              subst hp8
              subst ho8
              injection hs with hr
              subst hr
              refine ⟨(PGSIZE - roundUp4 (cmd.length + 1) + U32 -
                  (16 - (PGSIZE - (PGSIZE - roundUp4 (cmd.length + 1)) +
                    ((tokens cmd).length + 1) * 4 + 4 + 4) % 16)) % U32,
                p4x, ?_, ?_, heq4, rfl, rfl, ?_, ?_, ?_⟩
              · rw [hPG, hU]
                rw [hPG] at hfit
                omega
              · omega
              · dsimp only
                omega
              · dsimp only
                omega
              · dsimp only
                simp only [Nat.sub_sub]


/-- C5 counterexample: on the command line "echo" the final esp handed
    to the process has page offset 4060, which is not a multiple of 16
    (the alignment formula deliberately leaves the fake return address
    out of its count). -/
theorem init_cmd_line_esp_not_16_aligned :
    (init_cmd_line [101, 99, 104, 111]).map CmdFrame.espOfs = some 4060 ∧
      ¬ (4060 % 16 = 0) := by
  constructor
  · rfl
  · decide

/-- C5 (amended). For every command line accepted by init_cmd_line
    (within the Fits bounds), the esp value immediately before the fake
    return address is pushed is 16-byte aligned, so the final esp
    handed to the new process satisfies esp % 16 = 12 - equivalently
    esp + 4 is 16-byte aligned - matching the i386 calling convention
    at function entry. -/
theorem init_cmd_line_esp_mod16 (cmd : List Nat) (r : CmdFrame)
    (hfit : Fits cmd) (hs : init_cmd_line cmd = some r) :
    r.espOfs % 16 = 12 ∧ (r.espOfs + 4) % 16 = 0 := by
  obtain ⟨hfit1, -⟩ := hfit
  obtain ⟨ofs2, p4, ho2, hle, hpush, hargc, hargv, hesp, h12, hpage⟩ :=
    init_cmd_line_struct cmd r hfit1 hs
  have hPG : PGSIZE = 4096 := rfl
  rw [hPG] at ho2 hfit1
  rw [hesp, hargv]
  have hmod := Nat.mod_add_div
    (roundUp4 (cmd.length + 1) + ((tokens cmd).length + 1) * 4 + 4 + 4) 16
  have hlt : (roundUp4 (cmd.length + 1) + ((tokens cmd).length + 1) * 4 + 4 + 4) % 16 < 16 :=
    Nat.mod_lt _ (by norm_num)
  generalize hA : (roundUp4 (cmd.length + 1) +
    ((tokens cmd).length + 1) * 4 + 4 + 4) % 16 = A at ho2 hlt hmod
  refine ⟨by omega, by omega⟩

/-- The run of init_cmd_line on the command line "echo" succeeds. -/
theorem init_cmd_line_echo_isSome :
    (init_cmd_line [101, 99, 104, 111]).isSome = true := rfl

/-- C5 witness: the concrete frame built for "echo" has its final esp
    at page offset congruent to 12 modulo 16. -/
theorem init_cmd_line_esp_mod16_witness :
    ((init_cmd_line [101, 99, 104, 111]).get init_cmd_line_echo_isSome).espOfs % 16 = 12 ∧
    (((init_cmd_line [101, 99, 104, 111]).get init_cmd_line_echo_isSome).espOfs + 4) % 16 = 0 :=
  init_cmd_line_esp_mod16 [101, 99, 104, 111] _ ⟨by decide, by decide⟩
    (Option.some_get init_cmd_line_echo_isSome).symm

end Pintos

namespace Pintos

/-- Transfer a drop-decomposition of a list into indexwise facts: the
    token bytes and the terminator that follows them, all in range. -/
theorem drop_eq_bytes (L : List Nat) (s : Nat) (t tail : List Nat)
    (h : L.drop s = t ++ 0 :: tail) :
    (∀ k, k < t.length → L.getD (s + k) 0 = t.getD k 0) ∧
    L.getD (s + t.length) 0 = 0 ∧ s + t.length < L.length := by
  have hlen := congrArg List.length h
  rw [List.length_drop] at hlen
  simp only [List.length_append, List.length_cons] at hlen
  have hsle : s ≤ L.length := by
    by_contra hgt
    omega
  refine ⟨?_, ?_, by omega⟩
  · intro k hk
    rw [List.getD_eq_getElem?_getD, ← List.getElem?_drop, h,
        List.getElem?_append_left hk, ← List.getD_eq_getElem?_getD]
  · rw [List.getD_eq_getElem?_getD, ← List.getElem?_drop, h,
        List.getElem?_append_right (le_refl t.length)]
    simp

/-- The byte content of the stack page over the command-line string
    region after the string push and the in-place tokenization: it
    holds the cut string followed by the pushed terminator. -/
theorem stackPage_content (cmd : List Nat) (k : Nat) (hk : k < cmd.length + 1) :
    writeBytes (writeBytes emptyPage (PGSIZE - (cmd.length + 1)) (cmd ++ [0]))
      (PGSIZE - (cmd.length + 1)) (cutTok cmd) (PGSIZE - (cmd.length + 1) + k) =
      (cutTok cmd ++ [0]).getD k 0 := by
  have hcut : (cutTok cmd).length = cmd.length := cutTok_length cmd.length cmd (le_refl _)
  by_cases hkl : k < cmd.length
  · rw [writeBytes_getD _ _ _ k (by rw [hcut]; exact hkl)]
    rw [List.getD_eq_getElem?_getD, List.getD_eq_getElem?_getD,
        List.getElem?_append_left (by rw [hcut]; exact hkl)]
  · have hk0 : k = cmd.length := by omega
    subst hk0
    rw [writeBytes_of_ge _ _ _ _ (by rw [hcut])]
    rw [writeBytes_getD (cmd ++ [0]) emptyPage _ cmd.length (by simp)]
    rw [List.getD_eq_getElem?_getD, List.getD_eq_getElem?_getD,
        List.getElem?_append_right (le_refl cmd.length),
        List.getElem?_append_right (le_of_eq hcut)]
    rw [hcut]

end Pintos

namespace Pintos

/-- C3. For every command line within the page and argument-array
    bounds, after init_cmd_line succeeds the argv frame satisfies the
    round-trip property: argv holds argc pointers, argv[argc] is a null
    sentinel, and for each i the word argv[i] is the user address of
    the i-th space-separated token, whose NUL-terminated string read
    through the user mapping equals that token (the pointers are pushed
    in order and then reversed in place). -/
theorem init_cmd_line_argv_roundtrip (cmd : List Nat) (r : CmdFrame) (i : Nat)
    (hb : ∀ b ∈ cmd, 0 < b ∧ b < 256)
    (hfit : Fits cmd)
    (hs : init_cmd_line cmd = some r)
    (hi : i < (tokens cmd).length) :
    r.argc = (tokens cmd).length ∧
    readWord r.page (r.argvOfs + 4 * r.argc) = 0 ∧
    readWord r.page (r.argvOfs + 4 * i) =
      UPAGE + (PGSIZE - (cmd.length + 1)) + ((tokens cmd).get ⟨i, hi⟩).1 ∧
    readUserStr r.page (readWord r.page (r.argvOfs + 4 * i)) =
      ((tokens cmd).get ⟨i, hi⟩).2 := by
  obtain ⟨hfit1, hargs_le⟩ := hfit
  obtain ⟨ofs2, p4, ho2, hle, hpush, hargc, hargv, hesp, h12, hpage⟩ :=
    init_cmd_line_struct cmd r hfit1 hs
  have hPG : PGSIZE = 4096 := rfl
  have hU : U32 = 4294967296 := rfl
  have hUP : UPAGE = 3221221376 := rfl
  have hRge := roundUp4_ge (cmd.length + 1)
  have hstr_le : ofs2 ≤ PGSIZE - (cmd.length + 1) := by
    rw [ho2, hPG]
    rw [hPG] at hfit1
    omega
  set pr := (tokens cmd).get ⟨i, hi⟩ with hprdef
  have hmem : pr ∈ tokens cmd := List.get_mem (tokens cmd) i hi
  obtain ⟨tail, hdrop, htne, htmem⟩ := tokens_spec cmd.length cmd (le_refl _) pr hmem
  obtain ⟨hbytes_tok, hterm, hrange⟩ := drop_eq_bytes (cutTok cmd ++ [0]) pr.1 pr.2 tail hdrop
  have hcutlen : (cutTok cmd ++ [0]).length = cmd.length + 1 := by
    simp [cutTok_length cmd.length cmd (le_refl _)]
  rw [hcutlen] at hrange
  have htpos : 1 ≤ pr.2.length := List.length_pos.mpr htne
  have hargsval : ((tokens cmd).map
      (fun st => UPAGE + (PGSIZE - (cmd.length + 1)) + st.1)).getD i 0
      = UPAGE + (PGSIZE - (cmd.length + 1)) + pr.1 := by
    rw [List.getD_eq_getElem?_getD, List.getElem?_map, List.getElem?_eq_getElem hi]
    rfl
  obtain ⟨ho4x, hlen4, hfa, hfb, hw⟩ := pushArgs_spec _ _ _ _ _ hpush
  simp only [List.length_map] at hlen4 hw
  have hLbound : cmd.length + 1 ≤ 4080 := by
    rw [hPG] at hfit1
    omega
  -- the page agrees with the tokenized string page at and above the string
  have hframe : ∀ x, PGSIZE - (cmd.length + 1) ≤ x →
      r.page x = writeBytes (writeBytes emptyPage (PGSIZE - (cmd.length + 1)) (cmd ++ [0]))
        (PGSIZE - (cmd.length + 1)) (cutTok cmd) x := by
    intro x hx
    rw [hpage]
    rw [writeBytes_of_ge _ _ _ _ (by rw [leBytes32_length]; omega)]
    rw [writeBytes_of_ge _ _ _ _ (by rw [leBytes32_length]; omega)]
    rw [writeBytes_of_ge _ _ _ _ (by rw [leBytes32_length]; omega)]
    rw [reverse_frame _ _ _ _ (Or.inr (by omega))]
    rw [hfa x (by omega)]
    rw [writeBytes_of_ge _ _ _ _ (by rw [leBytes32_length]; omega)]
  -- words of the final page over the argv array come from the reversed page
  have hword : ∀ m, m ≤ (tokens cmd).length →
      readWord r.page (r.argvOfs + 4 * m) =
        readWord (reverse p4 (r.argvOfs) ((tokens cmd).length)) (r.argvOfs + 4 * m) := by
    intro m hm
    apply readWord_congr4
    intro k hk
    rw [hpage]
    rw [writeBytes_of_ge _ _ _ _ (by rw [leBytes32_length]; omega)]
    rw [writeBytes_of_ge _ _ _ _ (by rw [leBytes32_length]; omega)]
    rw [writeBytes_of_ge _ _ _ _ (by rw [leBytes32_length]; omega)]
  -- the null sentinel at argv[argc]
  have hsent : readWord r.page (r.argvOfs + 4 * (tokens cmd).length) = 0 := by
    rw [hword _ (le_refl _)]
    have e1 : readWord (reverse p4 (r.argvOfs) ((tokens cmd).length))
        (r.argvOfs + 4 * (tokens cmd).length) =
        readWord p4 (r.argvOfs + 4 * (tokens cmd).length) :=
      readWord_congr4 _ _ _ (fun k hk => reverse_frame _ _ _ _ (Or.inr (by omega)))
    rw [e1]
    have e2 : readWord p4 (r.argvOfs + 4 * (tokens cmd).length) =
        readWord (writeBytes
          (writeBytes (writeBytes emptyPage (PGSIZE - (cmd.length + 1)) (cmd ++ [0]))
            (PGSIZE - (cmd.length + 1)) (cutTok cmd))
          (ofs2 - 4) (leBytes32 0))
          (r.argvOfs + 4 * (tokens cmd).length) :=
      readWord_congr4 _ _ _ (fun k hk => hfa _ (by omega))
    rw [e2]
    rw [show r.argvOfs + 4 * (tokens cmd).length = ofs2 - 4 by omega]
    exact readWord_writeBytes_leBytes32 _ _ 0 (by rw [hU]; omega)
  -- the pointer argv[i]
  have hbound : ((tokens cmd).map
      (fun st => UPAGE + (PGSIZE - (cmd.length + 1)) + st.1)).getD i 0 < U32 := by
    rw [hargsval, hU, hUP, hPG]
    omega
  have hptr : readWord r.page (r.argvOfs + 4 * i) =
      UPAGE + (PGSIZE - (cmd.length + 1)) + pr.1 := by
    rw [hword i (le_of_lt hi)]
    rw [reverse_readWord ((tokens cmd).length) p4 (r.argvOfs) i hi]
    rw [show r.argvOfs + 4 * ((tokens cmd).length - 1 - i) = ofs2 - 4 - 4 * (i + 1) by omega]
    rw [hw i hi hbound]
    exact hargsval
  -- the token string behind argv[i]
  have hstr : readStr r.page (PGSIZE - (cmd.length + 1) + pr.1) PGSIZE = pr.2 := by
    apply readStr_exact
    · intro k hk
      rw [show PGSIZE - (cmd.length + 1) + pr.1 + k =
          PGSIZE - (cmd.length + 1) + (pr.1 + k) by omega]
      rw [hframe _ (by omega)]
      rw [stackPage_content cmd (pr.1 + k) (by omega)]
      exact hbytes_tok k hk
    · intro b hbmem
      obtain ⟨h32, hin⟩ := htmem b hbmem
      have := (hb b hin).1
      omega
    · rw [show PGSIZE - (cmd.length + 1) + pr.1 + pr.2.length =
          PGSIZE - (cmd.length + 1) + (pr.1 + pr.2.length) by omega]
      rw [hframe _ (by omega)]
      rw [stackPage_content cmd (pr.1 + pr.2.length) (by omega)]
      exact hterm
    · rw [hPG]
      omega
  refine ⟨hargc, ?_, hptr, ?_⟩
  · rw [hargc]
    exact hsent
  · rw [hptr]
    unfold readUserStr
    rw [show UPAGE + (PGSIZE - (cmd.length + 1)) + pr.1 - UPAGE =
        PGSIZE - (cmd.length + 1) + pr.1 by omega]
    exact hstr

end Pintos

namespace Pintos

/-- The run of init_cmd_line on the command line "echo hi" succeeds. -/
theorem init_cmd_line_echo_hi_isSome :
    (init_cmd_line [101, 99, 104, 111, 32, 104, 105]).isSome = true := rfl

/-- C3 witness: on the concrete command line "echo hi" the frame has
    argc = 2, a null sentinel at argv[2], and argv[1] is the user
    address 3221225469 (UPAGE + 4093) of the token "hi", which reads
    back as the bytes of "hi". -/
theorem init_cmd_line_argv_roundtrip_witness :
    ((init_cmd_line [101, 99, 104, 111, 32, 104, 105]).get
        init_cmd_line_echo_hi_isSome).argc = 2 ∧
    readWord ((init_cmd_line [101, 99, 104, 111, 32, 104, 105]).get
        init_cmd_line_echo_hi_isSome).page
      (((init_cmd_line [101, 99, 104, 111, 32, 104, 105]).get
          init_cmd_line_echo_hi_isSome).argvOfs +
        4 * ((init_cmd_line [101, 99, 104, 111, 32, 104, 105]).get
          init_cmd_line_echo_hi_isSome).argc) = 0 ∧
    readWord ((init_cmd_line [101, 99, 104, 111, 32, 104, 105]).get
        init_cmd_line_echo_hi_isSome).page
      (((init_cmd_line [101, 99, 104, 111, 32, 104, 105]).get
          init_cmd_line_echo_hi_isSome).argvOfs + 4 * 1) = 3221225469 ∧
    readUserStr ((init_cmd_line [101, 99, 104, 111, 32, 104, 105]).get
        init_cmd_line_echo_hi_isSome).page
      (readWord ((init_cmd_line [101, 99, 104, 111, 32, 104, 105]).get
          init_cmd_line_echo_hi_isSome).page
        (((init_cmd_line [101, 99, 104, 111, 32, 104, 105]).get
            init_cmd_line_echo_hi_isSome).argvOfs + 4 * 1)) = [104, 105] := by
  have h := init_cmd_line_argv_roundtrip [101, 99, 104, 111, 32, 104, 105]
    ((init_cmd_line [101, 99, 104, 111, 32, 104, 105]).get init_cmd_line_echo_hi_isSome) 1
    (by decide) ⟨by decide, by decide⟩
    (Option.some_get init_cmd_line_echo_hi_isSome).symm (by decide)
  exact ⟨h.1, h.2.1, h.2.2.1, h.2.2.2⟩

end Pintos
